import Mathlib

/-!
Verification of the conserve backup system's storage engine against its
specification.  The Rust source is embedded shallowly: strings are byte
lists (`List Nat`), machine integers are `Nat`/`Int`, fallible operations
return `Except`/`Option`, and the filesystem state touched by each
operation is threaded explicitly.
-/

namespace Conserve

/-! ## Apaths (src/apath.rs)

Apaths are UTF-8 strings; we model them as their byte sequences, which is
faithful because Rust's `str::cmp` compares by bytes and `split('/')`
splits on the single byte 0x2F (47), on which UTF-8 is self-synchronizing.
-/

/-- The byte `'/'`. -/
def slashByte : Nat := 47

/-- Model of Rust `str::split('/')` on byte strings: the list of
`'/'`-separated components.  Always returns at least one component. -/
def splitSlash : List Nat → List (List Nat)
  | [] => [[]]
  | c :: rest =>
    if c = slashByte then
      [] :: splitSlash rest
    else
      match splitSlash rest with
      | [] => [[c]]
      | p :: ps => (c :: p) :: ps

/-- Inverse of `splitSlash`: join components with `'/'`. -/
def joinSlash : List (List Nat) → List Nat
  | [] => []
  | [p] => p
  | p :: ps => p ++ slashByte :: joinSlash ps

/-- Rust `str::cmp`: lexicographic byte order. -/
def bytesCmp : List Nat → List Nat → Ordering
  | [], [] => .eq
  | [], _ :: _ => .lt
  | _ :: _, [] => .gt
  | a :: as', b :: bs' =>
    if a < b then .lt
    else if b < a then .gt
    else bytesCmp as' bs'

/-- The loop of `impl Ord for Apath` in src/apath.rs: `a`/`b` are the
current components, `as'`/`bs'` the remaining ones from the split
iterators.  A path that ends sorts before one that descends further;
otherwise differing components decide by byte order. -/
def cmpRest : List Nat → List (List Nat) → List Nat → List (List Nat) → Ordering
  | a, [], b, [] => bytesCmp a b
  | _, [], _, _ :: _ => .lt
  | _, _ :: _, _, [] => .gt
  | a, a1 :: as', b, b1 :: bs' =>
    match bytesCmp a b with
    | .eq => cmpRest a1 as' b1 bs'
    | c => c

/-- `Apath::cmp` from src/apath.rs: split both paths on `'/'` and walk
the components pairwise.  The catch-all arm is dead code (`splitSlash`
never returns `[]`), mirroring the `expect` in the source. -/
def apathCmp (a b : List Nat) : Ordering :=
  match splitSlash a, splitSlash b with
  | a0 :: as', b0 :: bs' => cmpRest a0 as' b0 bs'
  | _, _ => .eq

/-- One component check from the loop body of `valid` in src/apath.rs:
not empty, not `"."`, not `".."`, and no NUL byte. -/
def validComponent (part : List Nat) : Bool :=
  !part.isEmpty && part ≠ [46] && part ≠ [46, 46] && !part.contains 0

/-- `valid` from src/apath.rs: starts with `'/'`; the one-byte string
`"/"` is valid; otherwise every component of the remainder must pass
`validComponent`. -/
def valid : List Nat → Bool
  | [] => false
  | c :: rest =>
    if c ≠ slashByte then false
    else if rest = [] then true
    else (splitSlash rest).all validComponent

/-- The root apath `"/"`. -/
def rootApath : List Nat := [slashByte]

/-- `struct Apath(String)` from src/apath.rs. -/
structure Apath where
  bytes : List Nat
  deriving DecidableEq, Repr

/-- `Apath::from_string` from src/apath.rs: `assert!(valid(s))` then wrap.
The assertion failure (panic) is modelled as `none`. -/
def Apath.from_string (s : List Nat) : Option Apath :=
  if valid s then some ⟨s⟩ else none

/-- `Ord::cmp` on `Apath`. -/
def Apath.cmp (a b : Apath) : Ordering :=
  apathCmp a.bytes b.bytes

/-! ## Data model of the backup writer (src/backup.rs)

Block hashes are abstracted as an arbitrary function `hashFn` from
uncompressed bytes to `Nat` (the blockdir module is not in src/).  The
block-dir is modelled as the log of byte strings passed to
`store_or_deduplicate` calls, threaded explicitly.
-/

/-- Entry kinds (src kind module). -/
inductive Kind where
  | dir
  | file
  | symlink
  | unknown
  deriving DecidableEq, Repr

/-- `blockdir::Address`: a byte range within the decompressed contents of
one block. -/
structure Address where
  hash : Nat
  start : Nat
  len : Nat
  deriving DecidableEq, Repr

/-- `IndexEntry` (index module; field shapes per the spec's data model). -/
structure IndexEntry where
  apath : List Nat
  kind : Kind
  mtime : Int
  mtime_nanos : Nat
  size : Option Nat
  unix_mode : Option Nat
  target : Option (List Nat)
  addrs : List Address
  deriving DecidableEq, Repr

/-- A source-tree entry as the backup writer sees it (live_tree module). -/
structure LiveEntry where
  apath : List Nat
  kind : Kind
  mtime : Int
  mtime_nanos : Nat
  size : Option Nat
  unix_mode : Option Nat
  target : Option (List Nat)
  deriving DecidableEq, Repr

/-- Modelled from the spec: `IndexEntry::metadata_from` (index module not
in src/): an IndexEntry carrying the live entry's metadata and no
addresses. -/
def IndexEntry.metadata_from (e : LiveEntry) : IndexEntry :=
  { apath := e.apath, kind := e.kind, mtime := e.mtime,
    mtime_nanos := e.mtime_nanos, size := e.size,
    unix_mode := e.unix_mode, target := e.target, addrs := [] }

/-- Modelled from the spec: `is_unchanged_from` (entry module not in
src/): same kind, same mtime down to nanoseconds, same size, and same
unix mode where compared. -/
def LiveEntry.is_unchanged_from (live : LiveEntry) (basis : IndexEntry) : Bool :=
  basis.kind == live.kind && basis.mtime == live.mtime &&
    basis.mtime_nanos == live.mtime_nanos && basis.size == live.size &&
    basis.unix_mode == live.unix_mode

/-- Modelled from the spec: `IndexEntryIter::advance_to` (index module
not in src/): skip forward monotonically, consuming entries whose apath
is before the query, returning the matching entry if present, and
stopping (without consuming) at the first entry past the query.  Returns
the match and the remaining entries. -/
def advance_to (apath : List Nat) : List IndexEntry → Option IndexEntry × List IndexEntry
  | [] => (none, [])
  | e :: rest =>
    match apathCmp e.apath apath with
    | .lt => advance_to apath rest
    | .eq => (some e, rest)
    | .gt => (none, e :: rest)

/-- Counters from `BackupStats` (stats module) that the backup writer in
src/backup.rs updates. -/
structure BackupStats where
  files : Nat := 0
  unmodified_files : Nat := 0
  modified_files : Nat := 0
  new_files : Nat := 0
  empty_files : Nat := 0
  small_combined_files : Nat := 0
  single_block_files : Nat := 0
  multi_block_files : Nat := 0
  unknown_kind : Nat := 0
  directories : Nat := 0
  symlinks : Nat := 0
  combined_blocks : Nat := 0
  deriving DecidableEq, Repr

/-- `MAX_BLOCK_SIZE` from src/lib.rs: break blocks at this many
uncompressed bytes. -/
def MAX_BLOCK_SIZE : Nat := 1 <<< 20

/-- Modelled from the spec: `SMALL_FILE_CAP` (the constant is not in the
src/ copy of lib.rs); files at or below this size go to the FileCombiner
(spec: e.g. 100 KiB). -/
def SMALL_FILE_CAP : Nat := 100 * 1024

/-- Modelled from the spec: `TARGET_COMBINED_BLOCK_SIZE` (the constant is
not in the src/ copy of lib.rs); the FileCombiner flushes when its buffer
reaches this size (spec: e.g. 1 MiB). -/
def TARGET_COMBINED_BLOCK_SIZE : Nat := 1 <<< 20

/-- Modelled from the spec: `BlockDir::store_or_deduplicate` (blockdir
module not in src/).  The block-dir value is the log of uncompressed byte
strings passed to store calls, and the returned hash is an abstract
function of the bytes; deduplication, compression and block-write
statistics are not observable at this level and are not modelled. -/
def store_or_deduplicate (bd : List (List Nat)) (bytes : List Nat)
    (hashFn : List Nat → Nat) : Nat × List (List Nat) :=
  (hashFn bytes, bd ++ [bytes])

/-- `QueuedFile` from src/backup.rs: a file whose bytes sit in the
combine buffer at `[start, start+len)`, awaiting the block hash. -/
structure QueuedFile where
  start : Nat
  len : Nat
  entry : IndexEntry
  deriving DecidableEq, Repr

/-- `FileCombiner` state from src/backup.rs (its `block_dir` handle is
threaded separately as the store-call log). -/
structure FileCombiner where
  buf : List Nat
  queue : List QueuedFile
  finished : List IndexEntry
  stats : BackupStats
  deriving DecidableEq, Repr

/-- `FileCombiner::flush` from src/backup.rs: no-op on an empty queue;
otherwise store the combined buffer once and complete every queued entry
with a single address into that block, then clear buffer and queue. -/
def FileCombiner.flush (c : FileCombiner) (bd : List (List Nat))
    (hashFn : List Nat → Nat) : FileCombiner × List (List Nat) :=
  if c.queue.isEmpty then (c, bd)
  else
    let r := store_or_deduplicate bd c.buf hashFn
    ({ c with
        buf := [],
        queue := [],
        stats := { c.stats with combined_blocks := c.stats.combined_blocks + 1 },
        finished := c.finished ++ c.queue.map fun qf =>
          { qf.entry with addrs := [⟨r.1, qf.start, qf.len⟩] } },
      r.2)

/-- `FileCombiner::push_file` from src/backup.rs.  The single
`read` into the resized buffer is modelled as taking up to
`expected_len` bytes from the file's contents. -/
def FileCombiner.push_file (c : FileCombiner) (live_entry : LiveEntry)
    (content : List Nat) (bd : List (List Nat)) (hashFn : List Nat → Nat) :
    FileCombiner × List (List Nat) :=
  let start := c.buf.length
  let expected_len := live_entry.size.getD 0
  let index_entry := IndexEntry.metadata_from live_entry
  if expected_len = 0 then
    ({ c with
        stats := { c.stats with empty_files := c.stats.empty_files + 1 },
        finished := c.finished ++ [index_entry] }, bd)
  else
    let bytes := content.take expected_len
    let len := bytes.length
    if len = 0 then
      ({ c with
          stats := { c.stats with empty_files := c.stats.empty_files + 1 },
          finished := c.finished ++ [index_entry] }, bd)
    else
      let c1 := { c with
        buf := c.buf ++ bytes,
        stats := { c.stats with
          small_combined_files := c.stats.small_combined_files + 1 },
        queue := c.queue ++ [⟨start, len, index_entry⟩] }
      if TARGET_COMBINED_BLOCK_SIZE ≤ c1.buf.length then
        FileCombiner.flush c1 bd hashFn
      else
        (c1, bd)

/-- `FileCombiner::drain` from src/backup.rs: flush, hand the finished
entries and accumulated stats to the caller, and reset. -/
def FileCombiner.drain (c : FileCombiner) (bd : List (List Nat))
    (hashFn : List Nat → Nat) :
    (FileCombiner × List (List Nat)) × BackupStats × List IndexEntry :=
  let r := FileCombiner.flush c bd hashFn
  (({ buf := r.1.buf, queue := r.1.queue, finished := [], stats := {} }, r.2),
    r.1.stats, r.1.finished)

/-- The loop of `store_file_content` from src/backup.rs:
`read_with_retries` fills the buffer with up to `MAX_BLOCK_SIZE` bytes
per iteration (retrying short reads until EOF), each full buffer is
stored, and an address with `start 0` and the buffer's length is
recorded, until the source is exhausted. -/
def store_loop (content : List Nat) (bd : List (List Nat))
    (hashFn : List Nat → Nat) : List Address × List (List Nat) :=
  if h : content = [] then ([], bd)
  else
    let chunk := content.take MAX_BLOCK_SIZE
    let r := store_or_deduplicate bd chunk hashFn
    let rest := store_loop (content.drop MAX_BLOCK_SIZE) r.2 hashFn
    (⟨r.1, 0, chunk.length⟩ :: rest.1, rest.2)
termination_by content.length
decreasing_by
  simp only [List.length_drop]
  have h1 : 0 < content.length := List.length_pos.mpr h
  have h2 : 0 < MAX_BLOCK_SIZE := by decide
  omega

/-- `store_file_content` from src/backup.rs: run the store loop, then
classify the file as empty / single-block / multi-block in the stats.
The apath argument is used in the source only to attribute read errors,
which the pure reader model cannot produce. -/
def store_file_content (_apath : List Nat) (content : List Nat)
    (bd : List (List Nat)) (stats : BackupStats) (hashFn : List Nat → Nat) :
    List Address × List (List Nat) × BackupStats :=
  let r := store_loop content bd hashFn
  let stats' :=
    match r.1.length with
    | 0 => { stats with empty_files := stats.empty_files + 1 }
    | 1 => { stats with single_block_files := stats.single_block_files + 1 }
    | _ => { stats with multi_block_files := stats.multi_block_files + 1 }
  (r.1, r.2, stats')

/-- The mutable state of `BackupWriter` in src/backup.rs: the index
entries pushed so far (in order), the remaining basis index entries, the
stats, the file combiner, and the block-dir store-call log. -/
structure WriterState where
  index : List IndexEntry
  basis : List IndexEntry
  stats : BackupStats
  combiner : FileCombiner
  block_dir : List (List Nat)
  deriving DecidableEq, Repr

/-- The part of `BackupWriter::copy_file` after the basis short-circuit:
open the file, then dispatch on size zero / small / large. -/
def copy_file_contents (st : WriterState) (entry : LiveEntry)
    (content : List Nat) (hashFn : List Nat → Nat) : WriterState :=
  let size := entry.size.getD 0
  if size = 0 then
    { st with
        index := st.index ++ [IndexEntry.metadata_from entry],
        stats := { st.stats with empty_files := st.stats.empty_files + 1 } }
  else if size ≤ SMALL_FILE_CAP then
    let r := FileCombiner.push_file st.combiner entry content st.block_dir hashFn
    { st with combiner := r.1, block_dir := r.2 }
  else
    let r := store_file_content entry.apath content st.block_dir st.stats hashFn
    { st with
        block_dir := r.2.1,
        stats := r.2.2,
        index := st.index ++ [{ IndexEntry.metadata_from entry with addrs := r.1 }] }

/-- `BackupWriter::copy_file` from src/backup.rs: count the file, consult
the basis index; an unchanged file's basis entry is reused verbatim
without touching its contents; otherwise store the contents. -/
def copy_file (st : WriterState) (entry : LiveEntry) (content : List Nat)
    (hashFn : List Nat → Nat) : WriterState :=
  let st1 := { st with stats := { st.stats with files := st.stats.files + 1 } }
  match advance_to entry.apath st1.basis with
  | (some basis_entry, basis') =>
    if entry.is_unchanged_from basis_entry then
      { st1 with
          basis := basis',
          stats := { st1.stats with
            unmodified_files := st1.stats.unmodified_files + 1 },
          index := st1.index ++ [basis_entry] }
    else
      copy_file_contents
        { st1 with
            basis := basis',
            stats := { st1.stats with
              modified_files := st1.stats.modified_files + 1 } }
        entry content hashFn
  | (none, basis') =>
    copy_file_contents
      { st1 with
          basis := basis',
          stats := { st1.stats with new_files := st1.stats.new_files + 1 } }
      entry content hashFn

/-- `BackupWriter::copy_dir` from src/backup.rs: count it and push a
metadata-only entry. -/
def copy_dir (st : WriterState) (source_entry : LiveEntry) : WriterState :=
  { st with
      stats := { st.stats with directories := st.stats.directories + 1 },
      index := st.index ++ [IndexEntry.metadata_from source_entry] }

/-- `BackupWriter::copy_symlink` from src/backup.rs: count it and push a
metadata-only entry (the source asserts the target is present). -/
def copy_symlink (st : WriterState) (source_entry : LiveEntry) : WriterState :=
  { st with
      stats := { st.stats with symlinks := st.stats.symlinks + 1 },
      index := st.index ++ [IndexEntry.metadata_from source_entry] }

/-- `BackupWriter::copy_entry` from src/backup.rs: dispatch on the entry
kind.  Entries of unknown kind are counted and silently skipped — no
index entry is pushed. -/
def copy_entry (st : WriterState) (entry : LiveEntry) (content : List Nat)
    (hashFn : List Nat → Nat) : WriterState :=
  match entry.kind with
  | .dir => copy_dir st entry
  | .file => copy_file st entry content hashFn
  | .symlink => copy_symlink st entry
  | .unknown =>
    { st with
        stats := { st.stats with unknown_kind := st.stats.unknown_kind + 1 } }

/-! ## Archive, GC lock and band deletion (src/archive.rs)

At the archive level a band is its id plus the index entries of its
committed hunks, and the block-dir is the list of present blocks as
(hash, compressed size) pairs.  The GC lock file is a boolean.
-/

/-- Error kinds needed by the embedded operations (errors module). -/
inductive ConserveError where
  | GarbageCollectionLockHeld
  | IOError
  deriving DecidableEq, Repr

/-- A band as `delete_bands` sees it: its id (a sequence of non-negative
integers) and the entries of its committed index hunks. -/
structure BandState where
  band_id : List Nat
  entries : List IndexEntry
  deriving DecidableEq, Repr

/-- The archive state touched by src/archive.rs: the bands, the present
blocks with their compressed sizes, and the GC lock file's presence. -/
structure ArchiveState where
  bands : List BandState
  blocks : List (Nat × Nat)
  gc_lock : Bool
  deriving DecidableEq, Repr

/-- `DeleteOptions` from src/archive.rs. -/
structure DeleteOptions where
  dry_run : Bool := false
  break_lock : Bool := false
  deriving DecidableEq, Repr

/-- `DeleteStats` from src/archive.rs (elapsed wall time is not
modelled). -/
structure DeleteStats where
  unreferenced_block_count : Nat := 0
  unreferenced_block_bytes : Nat := 0
  deleted_band_count : Nat := 0
  deleted_block_count : Nat := 0
  deletion_errors : Nat := 0
  deriving DecidableEq, Repr

/-- Modelled from the spec: `GarbageCollectionLock::is_locked` (gc_lock
module not in src/): the GC_LOCK file exists. -/
def GarbageCollectionLock.is_locked (st : ArchiveState) : Bool :=
  st.gc_lock

/-- Modelled from the spec: `GarbageCollectionLock::new` (gc_lock module
not in src/): create GC_LOCK exclusively; fail `GarbageCollectionLockHeld`
if it already exists. -/
def GarbageCollectionLock.new (st : ArchiveState) :
    Except ConserveError ArchiveState :=
  if st.gc_lock then .error .GarbageCollectionLockHeld
  else .ok { st with gc_lock := true }

/-- Modelled from the spec: `GarbageCollectionLock::break_lock` (gc_lock
module not in src/): take the lock over, overwriting any existing
GC_LOCK. -/
def GarbageCollectionLock.break_lock (st : ArchiveState) :
    Except ConserveError ArchiveState :=
  .ok { st with gc_lock := true }

/-- `compressed_size(hash).unwrap_or_default()` as used by the deletion
measurement in src/archive.rs. -/
def compressed_size (blocks : List (Nat × Nat)) (h : Nat) : Nat :=
  ((blocks.find? fun p => p.1 == h).map Prod.snd).getD 0

/-- The committed index entries of the band with the given id (empty if
no such band; `Band::open` cannot fail for ids listed from the
archive). -/
def band_entries (st : ArchiveState) (id : List Nat) : List IndexEntry :=
  ((st.bands.find? fun b => b.band_id == id).map BandState.entries).getD []

/-- `Archive::iter_referenced_blocks` from src/archive.rs: every block
hash appearing in an address of an index entry of one of the given
bands, with repetitions. -/
def iter_referenced_blocks (st : ArchiveState) (band_ids : List (List Nat)) :
    List Nat :=
  (band_ids.flatMap fun id => (band_entries st id).flatMap IndexEntry.addrs).map
    Address.hash

/-- `Archive::delete_bands` from src/archive.rs: acquire (or break) the
GC lock, compute the blocks referenced by the kept bands, measure the
unreferenced ones, and — unless `dry_run` — delete the named bands and
then the unreferenced blocks.  `Band::delete` on a missing band
directory fails, aborting the operation. -/
def delete_bands (st : ArchiveState) (delete_band_ids : List (List Nat))
    (options : DeleteOptions) :
    Except ConserveError (ArchiveState × DeleteStats) :=
  match (if options.break_lock then GarbageCollectionLock.break_lock st
    else GarbageCollectionLock.new st) with
  | .error e => .error e
  | .ok locked =>
    let keep_band_ids := (st.bands.map BandState.band_id).filter
      fun i => ¬ delete_band_ids.contains i
    let referenced := iter_referenced_blocks st keep_band_ids
    let unref := (st.blocks.map Prod.fst).filter fun h => ¬ referenced.contains h
    let stats : DeleteStats :=
      { unreferenced_block_count := unref.length,
        unreferenced_block_bytes := (unref.map (compressed_size st.blocks)).sum }
    if options.dry_run then
      .ok ({ locked with gc_lock := false }, stats)
    else if delete_band_ids.all
        (fun i => (st.bands.map BandState.band_id).contains i) then
      .ok
        ({ locked with
            bands := locked.bands.filter
              fun b => ¬ delete_band_ids.contains b.band_id,
            blocks := locked.blocks.filter fun p => ¬ unref.contains p.1,
            gc_lock := false },
          { stats with
              deleted_band_count := delete_band_ids.length,
              deleted_block_count := unref.length })
    else
      .error .IOError

/-- Modelled from the spec: `Band::create` (band module not in src/):
allocate the next band id (max existing id plus one, or 0 if none) and
create the new, empty, open band. -/
def Band.create (st : ArchiveState) : ArchiveState × List Nat :=
  let ids := st.bands.map BandState.band_id
  let id :=
    match ids with
    | [] => [0]
    | i :: rest =>
      let maxId := rest.foldl
        (fun acc j => if bytesCmp acc j = .lt then j else acc) i
      match maxId.reverse with
      | [] => [0]
      | n :: back => ((n + 1) :: back).reverse
  ({ st with bands := st.bands ++ [⟨id, []⟩] }, id)

/-- `BackupWriter::begin` from src/backup.rs: refuse with
`GarbageCollectionLockHeld` while the GC lock is held, before creating
any band; otherwise create the new band.  (The basis-index setup is not
observable here and is not modelled.) -/
def BackupWriter.begin (st : ArchiveState) :
    Except ConserveError (ArchiveState × List Nat) :=
  if GarbageCollectionLock.is_locked st then
    .error .GarbageCollectionLockHeld
  else
    .ok (Band.create st)

/-! ## Concrete fixtures used to instantiate the theorems -/

/-- A source entry of unknown kind. -/
def exampleUnknownEntry : LiveEntry :=
  { apath := [47, 117], kind := .unknown, mtime := 0, mtime_nanos := 0,
    size := none, unix_mode := none, target := none }

/-- A regular file entry `/f`, 3 bytes. -/
def exampleFileEntry : LiveEntry :=
  { apath := [47, 102], kind := .file, mtime := 5, mtime_nanos := 6,
    size := some 3, unix_mode := some 420, target := none }

/-- A zero-byte file entry `/z`. -/
def exampleEmptyFileEntry : LiveEntry :=
  { apath := [47, 122], kind := .file, mtime := 5, mtime_nanos := 6,
    size := some 0, unix_mode := some 420, target := none }

/-- A basis index entry matching `exampleFileEntry`'s metadata, with an
address list. -/
def exampleBasisEntry : IndexEntry :=
  { apath := [47, 102], kind := .file, mtime := 5, mtime_nanos := 6,
    size := some 3, unix_mode := some 420, target := none,
    addrs := [⟨7, 0, 3⟩] }

/-- An empty file combiner. -/
def emptyCombiner : FileCombiner :=
  { buf := [], queue := [], finished := [], stats := {} }

/-- A fresh writer state with no basis. -/
def exampleWriterState : WriterState :=
  { index := [], basis := [], stats := {}, combiner := emptyCombiner,
    block_dir := [] }

/-- A writer state whose basis index holds `exampleBasisEntry`. -/
def exampleBasisState : WriterState :=
  { exampleWriterState with basis := [exampleBasisEntry] }

/-- A combiner with one queued one-byte file. -/
def exampleQueuedCombiner : FileCombiner :=
  { buf := [9], queue := [⟨0, 1, IndexEntry.metadata_from exampleFileEntry⟩],
    finished := [], stats := {} }

/-- Index entries referencing blocks 1 and 2 respectively. -/
def exampleEntryBlock1 : IndexEntry :=
  { apath := [47, 97], kind := .file, mtime := 0, mtime_nanos := 0,
    size := some 1, unix_mode := none, target := none, addrs := [⟨1, 0, 1⟩] }

def exampleEntryBlock2 : IndexEntry :=
  { apath := [47, 98], kind := .file, mtime := 0, mtime_nanos := 0,
    size := some 1, unix_mode := none, target := none, addrs := [⟨2, 0, 1⟩] }

/-- An archive with two bands referencing blocks 1 and 2. -/
def exampleArchive : ArchiveState :=
  { bands := [⟨[0], [exampleEntryBlock1]⟩, ⟨[1], [exampleEntryBlock2]⟩],
    blocks := [(1, 8), (2, 9)], gc_lock := false }

/-- `exampleArchive` with the GC lock held. -/
def exampleLockedArchive : ArchiveState :=
  { exampleArchive with gc_lock := true }

/-! ### Basic facts about the comparator -/

theorem splitSlash_ne_nil (l : List Nat) : splitSlash l ≠ [] := by
  cases l with
  | nil => simp [splitSlash]
  | cons c rest =>
    simp only [splitSlash]
    split
    · simp
    · cases h : splitSlash rest <;> simp

theorem joinSlash_splitSlash (l : List Nat) : joinSlash (splitSlash l) = l := by
  induction l with
  | nil => rfl
  | cons c rest ih =>
    simp only [splitSlash]
    split
    · rename_i hc
      subst hc
      rcases h : splitSlash rest with _ | ⟨p, ps⟩
      · exact absurd h (splitSlash_ne_nil rest)
      · rw [h] at ih
        cases ps with
        | nil => simpa [joinSlash] using ih
        | cons q qs => simpa [joinSlash] using ih
    · rcases h : splitSlash rest with _ | ⟨p, ps⟩
      · exact absurd h (splitSlash_ne_nil rest)
      · rw [h] at ih
        cases ps with
        | nil => simpa [joinSlash] using ih
        | cons q qs => simpa [joinSlash] using ih

theorem splitSlash_injective {a b : List Nat} (h : splitSlash a = splitSlash b) :
    a = b := by
  have := joinSlash_splitSlash a
  rw [h, joinSlash_splitSlash] at this
  exact this.symm

theorem bytesCmp_eq_iff (a b : List Nat) : bytesCmp a b = .eq ↔ a = b := by
  induction a generalizing b with
  | nil => cases b <;> simp [bytesCmp]
  | cons x xs ih =>
    cases b with
    | nil => simp [bytesCmp]
    | cons y ys =>
      simp only [bytesCmp]
      rcases lt_trichotomy x y with h | h | h
      · simp [h, Nat.ne_of_lt h]
      · subst h
        simp [lt_irrefl, ih]
      · rw [if_neg (by omega), if_pos h]
        simp [Nat.ne_of_gt h]

theorem bytesCmp_swap (a b : List Nat) : (bytesCmp a b).swap = bytesCmp b a := by
  induction a generalizing b with
  | nil => cases b <;> rfl
  | cons x xs ih =>
    cases b with
    | nil => rfl
    | cons y ys =>
      simp only [bytesCmp]
      rcases lt_trichotomy x y with h | h | h
      · rw [if_pos h, if_neg (by omega), if_pos h]; rfl
      · subst h
        simp [lt_irrefl, ih]
      · rw [if_neg (by omega), if_pos h, if_pos h]; rfl

theorem bytesCmp_lt_trans {a b c : List Nat} (hab : bytesCmp a b = .lt)
    (hbc : bytesCmp b c = .lt) : bytesCmp a c = .lt := by
  induction a generalizing b c with
  | nil =>
    cases b with
    | nil =>
      cases c with
      | nil => simp [bytesCmp] at hbc
      | cons z zs => simp [bytesCmp]
    | cons y ys => cases c with
      | nil => simp [bytesCmp] at hbc
      | cons z zs => simp [bytesCmp]
  | cons x xs ih =>
    cases b with
    | nil => simp [bytesCmp] at hab
    | cons y ys =>
      cases c with
      | nil => simp [bytesCmp] at hbc
      | cons z zs =>
        simp only [bytesCmp] at hab hbc ⊢
        rcases lt_trichotomy x y with hxy | hxy | hxy
        · rcases lt_trichotomy y z with hyz | hyz | hyz
          · rw [if_pos (lt_trans hxy hyz)]
          · subst hyz; rw [if_pos hxy]
          · rw [if_neg (by omega), if_pos hyz] at hbc; exact absurd hbc (by simp)
        · subst hxy
          rcases lt_trichotomy x z with hxz | hxz | hxz
          · rw [if_pos hxz]
          · subst hxz
            rw [if_neg (lt_irrefl _), if_neg (lt_irrefl _)] at hab hbc ⊢
            exact ih hab hbc
          · rw [if_neg (by omega), if_pos hxz] at hbc; exact absurd hbc (by simp)
        · rw [if_neg (by omega), if_pos hxy] at hab; exact absurd hab (by simp)

theorem cmpRest_eq_iff (a b : List Nat) (as' bs' : List (List Nat)) :
    cmpRest a as' b bs' = .eq ↔ a = b ∧ as' = bs' := by
  induction as' generalizing a b bs' with
  | nil =>
    cases bs' with
    | nil => simp [cmpRest, bytesCmp_eq_iff]
    | cons b1 brest => simp [cmpRest]
  | cons a1 arest ih =>
    cases bs' with
    | nil => simp [cmpRest]
    | cons b1 brest =>
      simp only [cmpRest]
      rcases h : bytesCmp a b with hc | hc | hc
      · have : a ≠ b := fun he => by
          rw [he, (bytesCmp_eq_iff b b).mpr rfl] at h
          simp at h
        simp [this]
      · have : a = b := (bytesCmp_eq_iff a b).mp h
        simp [this, ih]
      · have : a ≠ b := fun he => by
          rw [he, (bytesCmp_eq_iff b b).mpr rfl] at h
          simp at h
        simp [this]

theorem cmpRest_swap (a b : List Nat) (as' bs' : List (List Nat)) :
    (cmpRest a as' b bs').swap = cmpRest b bs' a as' := by
  induction as' generalizing a b bs' with
  | nil =>
    cases bs' with
    | nil => simp [cmpRest, bytesCmp_swap]
    | cons b1 brest => simp [cmpRest, Ordering.swap]
  | cons a1 arest ih =>
    cases bs' with
    | nil => simp [cmpRest, Ordering.swap]
    | cons b1 brest =>
      simp only [cmpRest]
      rcases h : bytesCmp a b with hc | hc | hc
      · have hba : bytesCmp b a = .gt := by rw [← bytesCmp_swap, h]; rfl
        simp [hba, Ordering.swap]
      · have hab : a = b := (bytesCmp_eq_iff a b).mp h
        have hba : bytesCmp b a = .eq := by rw [hab, bytesCmp_eq_iff]
        simp [hba, ih]
      · have hba : bytesCmp b a = .lt := by rw [← bytesCmp_swap, h]; rfl
        simp [hba, Ordering.swap]

theorem cmpRest_lt_trans {a b c : List Nat} {as' bs' cs' : List (List Nat)}
    (hab : cmpRest a as' b bs' = .lt) (hbc : cmpRest b bs' c cs' = .lt) :
    cmpRest a as' c cs' = .lt := by
  induction as' generalizing a b c bs' cs' with
  | nil =>
    cases bs' with
    | nil =>
      cases cs' with
      | nil =>
        simp only [cmpRest] at hab hbc ⊢
        exact bytesCmp_lt_trans hab hbc
      | cons c1 crest => simp [cmpRest]
    | cons b1 brest =>
      cases cs' with
      | nil => simp [cmpRest] at hbc
      | cons c1 crest => simp [cmpRest]
  | cons a1 arest ih =>
    cases bs' with
    | nil => simp [cmpRest] at hab
    | cons b1 brest =>
      cases cs' with
      | nil => simp [cmpRest] at hbc
      | cons c1 crest =>
        simp only [cmpRest] at hab hbc ⊢
        rcases hxy : bytesCmp a b with h1 | h1 | h1 <;> rw [hxy] at hab <;>
          rcases hyz : bytesCmp b c with h2 | h2 | h2 <;> rw [hyz] at hbc
        · rw [bytesCmp_lt_trans hxy hyz]
        · have : a = c → False := fun he => by
            subst he
            rw [← bytesCmp_swap, hxy] at hyz
            simp [Ordering.swap] at hyz
          rcases hxz : bytesCmp a c with h3 | h3 | h3
          · rfl
          · exact absurd ((bytesCmp_eq_iff a c).mp hxz) this
          · have heq : b = c := (bytesCmp_eq_iff b c).mp hyz
            subst heq
            rw [hxy] at hxz
            simp at hxz
        · simp at hbc
        · have heq : a = b := (bytesCmp_eq_iff a b).mp hxy
          subst heq
          rw [hyz]
        · have heq : a = b := (bytesCmp_eq_iff a b).mp hxy
          have heq2 : b = c := (bytesCmp_eq_iff b c).mp hyz
          subst heq; subst heq2
          rw [(bytesCmp_eq_iff a a).mpr rfl]
          exact ih hab hbc
        · simp at hbc
        · simp at hab
        · simp at hab
        · simp at hab

theorem apathCmp_eq_iff (a b : List Nat) : apathCmp a b = .eq ↔ a = b := by
  constructor
  · intro h
    unfold apathCmp at h
    rcases ha : splitSlash a with _ | ⟨a0, as'⟩
    · exact absurd ha (splitSlash_ne_nil a)
    rcases hb : splitSlash b with _ | ⟨b0, bs'⟩
    · exact absurd hb (splitSlash_ne_nil b)
    rw [ha, hb] at h
    obtain ⟨h1, h2⟩ := (cmpRest_eq_iff a0 b0 as' bs').mp h
    exact splitSlash_injective (by rw [ha, hb, h1, h2])
  · rintro rfl
    unfold apathCmp
    rcases ha : splitSlash a with _ | ⟨a0, as'⟩
    · exact absurd ha (splitSlash_ne_nil a)
    · exact (cmpRest_eq_iff a0 a0 as' as').mpr ⟨rfl, rfl⟩

theorem apathCmp_swap (a b : List Nat) : (apathCmp a b).swap = apathCmp b a := by
  unfold apathCmp
  rcases ha : splitSlash a with _ | ⟨a0, as'⟩
  · exact absurd ha (splitSlash_ne_nil a)
  rcases hb : splitSlash b with _ | ⟨b0, bs'⟩
  · exact absurd hb (splitSlash_ne_nil b)
  exact cmpRest_swap a0 b0 as' bs'

theorem apathCmp_lt_trans {a b c : List Nat} (hab : apathCmp a b = .lt)
    (hbc : apathCmp b c = .lt) : apathCmp a c = .lt := by
  unfold apathCmp at hab hbc ⊢
  rcases ha : splitSlash a with _ | ⟨a0, as'⟩
  · exact absurd ha (splitSlash_ne_nil a)
  rcases hb : splitSlash b with _ | ⟨b0, bs'⟩
  · exact absurd hb (splitSlash_ne_nil b)
  rcases hc : splitSlash c with _ | ⟨c0, cs'⟩
  · exact absurd hc (splitSlash_ne_nil c)
  rw [ha, hb] at hab
  rw [hb, hc] at hbc
  have hab' : cmpRest a0 as' b0 bs' = .lt := hab
  have hbc' : cmpRest b0 bs' c0 cs' = .lt := hbc
  exact cmpRest_lt_trans hab' hbc'

theorem apathCmp_root_lt {b : List Nat} (hv : valid b = true)
    (hne : b ≠ rootApath) : apathCmp rootApath b = .lt := by
  rcases b with _ | ⟨c, rest⟩
  · simp [valid] at hv
  have hc : c = slashByte := by
    by_contra hcc
    simp [valid, hcc] at hv
  subst hc
  rcases rest with _ | ⟨d, drest⟩
  · exact absurd rfl hne
  have hall : (splitSlash (d :: drest)).all validComponent = true := by
    simpa [valid, slashByte] using hv
  have hsplit : splitSlash (slashByte :: d :: drest) = [] :: splitSlash (d :: drest) := by
    simp [splitSlash]
  obtain ⟨u, us, hs⟩ : ∃ u us, splitSlash (d :: drest) = u :: us := by
    rcases h2 : splitSlash (d :: drest) with _ | ⟨u, us⟩
    · exact absurd h2 (splitSlash_ne_nil _)
    · exact ⟨u, us, rfl⟩
  have hroot : splitSlash rootApath = [[], []] := rfl
  have hcalc : apathCmp rootApath (slashByte :: d :: drest) =
      cmpRest [] [[]] [] (u :: us) := by
    unfold apathCmp
    rw [hroot, hsplit, hs]
  rw [hcalc]
  cases us with
  | nil =>
    have hu : validComponent u = true := by
      rw [hs] at hall
      simpa using hall
    rcases u with _ | ⟨x, xs⟩
    · simp [validComponent] at hu
    · show cmpRest [] [] (x :: xs) [] = .lt
      simp [cmpRest, bytesCmp]
  | cons v vs => rfl


/-! ### Facts about the store loop -/

theorem store_loop_nil (bd : List (List Nat)) (hashFn : List Nat → Nat) :
    store_loop [] bd hashFn = ([], bd) := by
  rw [store_loop]
  simp

theorem store_loop_cons (content : List Nat) (bd : List (List Nat))
    (hashFn : List Nat → Nat) (h : content ≠ []) :
    store_loop content bd hashFn =
      (⟨hashFn (content.take MAX_BLOCK_SIZE), 0,
          (content.take MAX_BLOCK_SIZE).length⟩ ::
        (store_loop (content.drop MAX_BLOCK_SIZE)
          (bd ++ [content.take MAX_BLOCK_SIZE]) hashFn).1,
       (store_loop (content.drop MAX_BLOCK_SIZE)
          (bd ++ [content.take MAX_BLOCK_SIZE]) hashFn).2) := by
  rw [store_loop]
  simp [h, store_or_deduplicate]

theorem store_loop_length :
    ∀ (n : Nat) (content : List Nat) (bd : List (List Nat))
      (hashFn : List Nat → Nat), content.length = n → content ≠ [] →
      (store_loop content bd hashFn).1.length =
        (n + MAX_BLOCK_SIZE - 1) / MAX_BLOCK_SIZE := by
  intro n
  induction n using Nat.strong_induction_on with
  | _ n ih =>
    intro content bd hashFn hlen hne
    have hM : 0 < MAX_BLOCK_SIZE := by decide
    have h1 : 0 < content.length := List.length_pos.mpr hne
    rw [store_loop_cons content bd hashFn hne]
    by_cases hsmall : content.length ≤ MAX_BLOCK_SIZE
    · have hdrop : content.drop MAX_BLOCK_SIZE = [] :=
        List.drop_eq_nil_of_le hsmall
      rw [hdrop, store_loop_nil]
      have : (n + MAX_BLOCK_SIZE - 1) / MAX_BLOCK_SIZE = 1 := by
        apply Nat.div_eq_of_lt_le
        · omega
        · omega
      simpa using this.symm
    · have hlen2 : (content.drop MAX_BLOCK_SIZE).length = n - MAX_BLOCK_SIZE := by
        simp [hlen]
      have hne2 : content.drop MAX_BLOCK_SIZE ≠ [] := by
        intro hcon
        rw [hcon] at hlen2
        simp at hlen2
        omega
      have ihres := ih (n - MAX_BLOCK_SIZE) (by omega) _
        (bd ++ [content.take MAX_BLOCK_SIZE]) hashFn hlen2 hne2
      simp only [List.length_cons, ihres]
      have heq : n + MAX_BLOCK_SIZE - 1 =
          (n - MAX_BLOCK_SIZE + MAX_BLOCK_SIZE - 1) + MAX_BLOCK_SIZE := by omega
      rw [heq, Nat.add_div_right _ hM]

theorem store_loop_addrs :
    ∀ (n : Nat) (content : List Nat) (bd : List (List Nat))
      (hashFn : List Nat → Nat), content.length = n →
      ∀ a ∈ (store_loop content bd hashFn).1,
        a.start = 0 ∧ a.len ≤ MAX_BLOCK_SIZE := by
  intro n
  induction n using Nat.strong_induction_on with
  | _ n ih =>
    intro content bd hashFn hlen a ha
    rcases Decidable.em (content = []) with hne | hne
    · rw [hne, store_loop_nil] at ha
      simp at ha
    · rw [store_loop_cons content bd hashFn hne] at ha
      have hM : 0 < MAX_BLOCK_SIZE := by decide
      have h1 : 0 < content.length := List.length_pos.mpr hne
      rcases List.mem_cons.mp ha with rfl | hrest
      · refine ⟨rfl, ?_⟩
        simp [List.length_take]
      · have hlen2 : (content.drop MAX_BLOCK_SIZE).length = n - MAX_BLOCK_SIZE := by
          simp [hlen]
        exact ih (n - MAX_BLOCK_SIZE) (by omega) _
          (bd ++ [content.take MAX_BLOCK_SIZE]) hashFn hlen2 a hrest

/-! ## Claim C3 -/

/-- C3 counterexample: the claim asserts that `"/a/b/c"` compares
strictly less than `"/b"`, but the comparator of src/apath.rs returns
`Greater` there (the path that ends first sorts first, so `"/b"`,
beginning byte comparison aside, precedes `"/a/b/c"`), as its own
`valid_and_ordered` test data records. -/
theorem c3_counterexample :
    ¬ apathCmp [47, 97, 47, 98, 47, 99] [47, 98] = .lt ∧
      apathCmp [47, 97, 47, 98, 47, 99] [47, 98] = .gt := by
  decide

/-- C3 (amended): `"/a/b"` compares strictly less than `"/a/b/c"`, and
`"/b"` compares strictly less than `"/a/b/c"`. -/
theorem c3_amended_examples :
    apathCmp [47, 97, 47, 98] [47, 97, 47, 98, 47, 99] = .lt ∧
      apathCmp [47, 98] [47, 97, 47, 98, 47, 99] = .lt := by
  decide

/-! ## Claim C9 -/

/-- C9: `valid s` holds exactly when `s` begins with `'/'` and either is
the single character `"/"` or every `'/'`-separated component after the
leading `'/'` is non-empty, not `"."`, not `".."`, and free of NUL; in
particular the empty string, `"//a"`, `"/a/"` and the relative `"a/b"`
are rejected. -/
theorem c9_valid_characterization :
    (∀ s : List Nat,
      valid s = true ↔
        ∃ rest, s = slashByte :: rest ∧
          (rest = [] ∨ ∀ part ∈ splitSlash rest,
            part ≠ [] ∧ part ≠ [46] ∧ part ≠ [46, 46] ∧ ¬ (0 ∈ part))) ∧
    valid [] = false ∧ valid [47, 47, 97] = false ∧
    valid [47, 97, 47] = false ∧ valid [97, 47, 98] = false := by
  refine ⟨?_, by decide, by decide, by decide, by decide⟩
  intro s
  cases s with
  | nil =>
    simp [valid]
  | cons c rest =>
    by_cases hc : c = slashByte
    · subst hc
      cases rest with
      | nil => exact iff_of_true (by decide) ⟨[], rfl, Or.inl rfl⟩
      | cons d drest =>
        have hval : valid (slashByte :: d :: drest) =
            (splitSlash (d :: drest)).all validComponent := by
          simp [valid]
        rw [hval]
        constructor
        · intro hall
          refine ⟨d :: drest, rfl, Or.inr ?_⟩
          intro part hp
          have hpart := List.all_eq_true.mp hall part hp
          simpa [validComponent, List.isEmpty_iff, and_assoc] using hpart
        · rintro ⟨rest', heq, hdisj⟩
          have hre : rest' = d :: drest := by
            injection heq with h1 h2
            exact h2.symm
          subst hre
          rcases hdisj with h | h
          · exact absurd h (by simp)
          · refine List.all_eq_true.mpr fun part hp => ?_
            have := h part hp
            simpa [validComponent, List.isEmpty_iff, and_assoc] using this
    · refine iff_of_false ?_ ?_
      · simp [valid, hc]
      · rintro ⟨rest', heq, -⟩
        exact hc (by injection heq)

/-- Witness for C9 at concrete inputs. -/
theorem c9_witness : valid [47, 97] = true :=
  (c9_valid_characterization.1 [47, 97]).mpr ⟨[97], rfl, Or.inr (by decide)⟩

/-! ## Claim C10 -/

/-- C10: `Apath::from_string s` returns the wrapped apath when
`valid s` holds, panics (modelled `none`) otherwise, and every apath it
constructs satisfies `valid`. -/
theorem c10_from_string_safety :
    ∀ s : List Nat,
      (valid s = true → Apath.from_string s = some ⟨s⟩) ∧
      (valid s = false → Apath.from_string s = none) ∧
      ∀ p : Apath, Apath.from_string s = some p → valid p.bytes = true := by
  intro s
  by_cases h : valid s = true
  · refine ⟨fun _ => ?_, fun hf => ?_, fun p hp => ?_⟩
    · simp [Apath.from_string, h]
    · rw [h] at hf
      cases hf
    · simp only [Apath.from_string] at hp
      rw [if_pos h] at hp
      injection hp with h2
      subst h2
      exact h
  · have hf : valid s = false := by
      cases hv : valid s
      · rfl
      · exact absurd hv h
    refine ⟨fun ht => absurd ht h, fun _ => ?_, fun p hp => ?_⟩
    · simp [Apath.from_string, hf]
    · simp only [Apath.from_string] at hp
      rw [if_neg h] at hp
      cases hp

/-- Witness for C10 at concrete inputs. -/
theorem c10_witness :
    Apath.from_string [47, 97] = some ⟨[47, 97]⟩ ∧
      Apath.from_string [97] = none :=
  ⟨(c10_from_string_safety [47, 97]).1 (by decide),
    (c10_from_string_safety [97]).2.1 (by decide)⟩

/-! ## Claim C8 -/

/-- C8 counterexample: for an entry of unknown kind, `copy_entry` in
src/backup.rs increments the unknown-kind counter but pushes no
IndexEntry at all — the index is left unchanged, contradicting the claim
that a metadata-only entry is pushed. -/
theorem c8_counterexample :
    (copy_entry exampleWriterState exampleUnknownEntry [] fun _ => 0).index =
        exampleWriterState.index ∧
      ¬ (copy_entry exampleWriterState exampleUnknownEntry [] fun _ => 0).index =
        exampleWriterState.index ++ [IndexEntry.metadata_from exampleUnknownEntry] ∧
      (copy_entry exampleWriterState exampleUnknownEntry [] fun _ => 0).stats.unknown_kind =
        exampleWriterState.stats.unknown_kind + 1 := by
  decide

/-- C8 (amended): an entry of unknown kind only increments the
unknown-kind counter — no IndexEntry is pushed and no content is stored
— while Dir and Symlink entries each get a metadata-only IndexEntry
pushed along with their counters. -/
theorem c8_amended_copy_entry :
    ∀ (st : WriterState) (e : LiveEntry) (content : List Nat)
      (hashFn : List Nat → Nat),
      (e.kind = .unknown → copy_entry st e content hashFn =
        { st with stats :=
            { st.stats with unknown_kind := st.stats.unknown_kind + 1 } }) ∧
      (e.kind = .dir → copy_entry st e content hashFn =
        { st with
            stats := { st.stats with directories := st.stats.directories + 1 },
            index := st.index ++ [IndexEntry.metadata_from e] }) ∧
      (e.kind = .symlink → copy_entry st e content hashFn =
        { st with
            stats := { st.stats with symlinks := st.stats.symlinks + 1 },
            index := st.index ++ [IndexEntry.metadata_from e] }) := by
  intro st e content hashFn
  refine ⟨fun hk => ?_, fun hk => ?_, fun hk => ?_⟩ <;>
    simp [copy_entry, hk, copy_dir, copy_symlink]

/-- Witness for C8's amended theorem at a concrete unknown-kind entry. -/
theorem c8_amended_witness :
    copy_entry exampleWriterState exampleUnknownEntry [] (fun _ => 0) =
      { exampleWriterState with stats :=
          { exampleWriterState.stats with
              unknown_kind := exampleWriterState.stats.unknown_kind + 1 } } :=
  (c8_amended_copy_entry exampleWriterState exampleUnknownEntry [] fun _ => 0).1
    rfl

/-! ## Claim C2 -/

/-- C2: on valid apaths, `Apath::cmp` is a total order — it always
returns one of Less/Equal/Greater, Equal holds exactly for identical
strings, it is transitive and antisymmetric — the root `"/"` is the
unique minimum, and at each level a path with no further component sorts
before one that descends further, while otherwise differing components
are compared by lexicographic byte order. -/
theorem c2_apath_total_order :
    (∀ a b : List Nat, valid a = true → valid b = true →
      apathCmp a b = .lt ∨ apathCmp a b = .eq ∨ apathCmp a b = .gt) ∧
    (∀ a b : List Nat, valid a = true → valid b = true →
      (apathCmp a b = .eq ↔ a = b)) ∧
    (∀ a b c : List Nat, valid a = true → valid b = true → valid c = true →
      apathCmp a b = .lt → apathCmp b c = .lt → apathCmp a c = .lt) ∧
    (∀ a b : List Nat, valid a = true → valid b = true →
      (apathCmp a b = .lt ↔ apathCmp b a = .gt)) ∧
    (valid rootApath = true ∧
      ∀ b : List Nat, valid b = true → b ≠ rootApath →
        apathCmp rootApath b = .lt ∧ apathCmp b rootApath = .gt) ∧
    (∀ m : List Nat, valid m = true →
      (∀ b : List Nat, valid b = true → b ≠ m → apathCmp m b = .lt) →
      m = rootApath) ∧
    (∀ (x y z : List Nat) (zs : List (List Nat)),
      cmpRest x [] y (z :: zs) = .lt) ∧
    (∀ x y : List Nat, cmpRest x [] y [] = bytesCmp x y) ∧
    (∀ (x y w z : List Nat) (ws zs : List (List Nat)),
      bytesCmp x y ≠ .eq → cmpRest x (w :: ws) y (z :: zs) = bytesCmp x y) := by
  have hswap : ∀ a b : List Nat, apathCmp a b = .lt ↔ apathCmp b a = .gt := by
    intro a b
    constructor
    · intro h
      rw [← apathCmp_swap, h]
      rfl
    · intro h
      have := apathCmp_swap b a
      rw [h] at this
      cases hab : apathCmp a b
      · rfl
      · rw [hab] at this
        cases this
      · rw [hab] at this
        cases this
  refine ⟨?_, ?_, ?_, ?_, ⟨by decide, ?_⟩, ?_, ?_, ?_, ?_⟩
  · intro a b _ _
    cases apathCmp a b
    · exact Or.inl rfl
    · exact Or.inr (Or.inl rfl)
    · exact Or.inr (Or.inr rfl)
  · intro a b _ _
    exact apathCmp_eq_iff a b
  · intro a b c _ _ _ hab hbc
    exact apathCmp_lt_trans hab hbc
  · intro a b _ _
    exact hswap a b
  · intro b hb hne
    exact ⟨apathCmp_root_lt hb hne,
      (hswap rootApath b).mp (apathCmp_root_lt hb hne)⟩
  · intro m hm hmin
    by_contra hne
    have h1 : apathCmp m rootApath = .lt := hmin rootApath (by decide)
      fun he => hne he.symm
    have h2 : apathCmp rootApath m = .lt := apathCmp_root_lt hm hne
    have h3 : apathCmp m rootApath = .gt := (hswap rootApath m).mp h2
    rw [h1] at h3
    cases h3
  · intro x y z zs
    rfl
  · intro x y
    rfl
  · intro x y w z ws zs hne
    cases h : bytesCmp x y
    · simp [cmpRest, h]
    · exact absurd h hne
    · simp [cmpRest, h]

/-- Witness for C2: transitivity applied at `/a < /b < /c`, and the root
below `/a`. -/
theorem c2_witness :
    apathCmp [47, 97] [47, 99] = .lt ∧ apathCmp rootApath [47, 97] = .lt := by
  obtain ⟨-, -, htrans, -, ⟨-, hroot⟩, -⟩ := c2_apath_total_order
  exact ⟨htrans [47, 97] [47, 98] [47, 99] (by decide) (by decide) (by decide)
      (by decide) (by decide),
    (hroot [47, 97] (by decide) (by decide)).1⟩

/-! ## Claim C4 -/

/-- C4: while the GC lock is held, `BackupWriter::begin` fails with
`GarbageCollectionLockHeld` (before creating any band), and
`delete_bands` without `break_lock` fails the same way; with
`break_lock` the lock is taken over and `delete_bands` never fails with
`GarbageCollectionLockHeld`. -/
theorem c4_gc_lock_exclusion :
    (∀ st : ArchiveState, st.gc_lock = true →
      BackupWriter.begin st = .error .GarbageCollectionLockHeld) ∧
    (∀ (st : ArchiveState) (ids : List (List Nat)) (opts : DeleteOptions),
      st.gc_lock = true → opts.break_lock = false →
      delete_bands st ids opts = .error .GarbageCollectionLockHeld) ∧
    (∀ (st : ArchiveState) (ids : List (List Nat)) (opts : DeleteOptions),
      opts.break_lock = true →
      delete_bands st ids opts ≠ .error .GarbageCollectionLockHeld) := by
  refine ⟨?_, ?_, ?_⟩
  · intro st hlock
    simp [BackupWriter.begin, GarbageCollectionLock.is_locked, hlock]
  · intro st ids opts hlock hbl
    simp [delete_bands, hbl, GarbageCollectionLock.new, hlock]
  · intro st ids opts hbl
    simp only [delete_bands, hbl, if_true, GarbageCollectionLock.break_lock]
    by_cases hd : opts.dry_run = true
    · simp [hd]
    · rw [if_neg hd]
      split
      · simp
      · simp

/-- Witness for C4 at a concretely locked archive. -/
theorem c4_witness :
    BackupWriter.begin exampleLockedArchive =
        .error .GarbageCollectionLockHeld ∧
      delete_bands exampleLockedArchive [] {} =
        .error .GarbageCollectionLockHeld ∧
      delete_bands exampleLockedArchive [] { break_lock := true } ≠
        .error .GarbageCollectionLockHeld :=
  ⟨c4_gc_lock_exclusion.1 exampleLockedArchive rfl,
    c4_gc_lock_exclusion.2.1 exampleLockedArchive [] {} rfl rfl,
    c4_gc_lock_exclusion.2.2 exampleLockedArchive [] { break_lock := true } rfl⟩

/-! ## Claim C5 -/

/-- C5: when the basis index yields an entry at the file's apath (which
`advance_to` only does for an exactly matching apath) and
`is_unchanged_from` holds, `copy_file` pushes the basis entry verbatim
(address list intact), increments `unmodified_files`, and leaves the
combiner and block-dir untouched; the result does not depend on the
file's contents, which are never read or stored. -/
theorem c5_unchanged_reuse :
    (∀ (q : List Nat) (l : List IndexEntry) (e : IndexEntry)
      (l' : List IndexEntry),
      advance_to q l = (some e, l') → apathCmp e.apath q = .eq) ∧
    ∀ (st : WriterState) (entry : LiveEntry) (content : List Nat)
      (hashFn : List Nat → Nat) (be : IndexEntry) (basis' : List IndexEntry),
      advance_to entry.apath st.basis = (some be, basis') →
      entry.is_unchanged_from be = true →
      copy_file st entry content hashFn =
        { st with
            basis := basis',
            index := st.index ++ [be],
            stats := { st.stats with
              files := st.stats.files + 1,
              unmodified_files := st.stats.unmodified_files + 1 } } := by
  constructor
  · intro q l
    induction l with
    | nil =>
      intro e l' h
      simp [advance_to] at h
    | cons x rest ih =>
      intro e l' h
      simp only [advance_to] at h
      cases hx : apathCmp x.apath q <;> rw [hx] at h
      · exact ih e l' h
      · injection h with h1 h2
        injection h1 with h1
        subst h1
        exact hx
      · injection h with h1 h2
        cases h1
  · intro st entry content hashFn be basis' hadv hunch
    simp only [copy_file]
    rw [hadv]
    simp [hunch]

/-- Witness for C5: a concretely unchanged file reuses its basis
entry. -/
theorem c5_witness :
    copy_file exampleBasisState exampleFileEntry [1, 2, 3] (fun _ => 0) =
      { exampleBasisState with
          basis := [],
          index := exampleBasisState.index ++ [exampleBasisEntry],
          stats := { exampleBasisState.stats with
            files := exampleBasisState.stats.files + 1,
            unmodified_files :=
              exampleBasisState.stats.unmodified_files + 1 } } :=
  c5_unchanged_reuse.2 exampleBasisState exampleFileEntry [1, 2, 3]
    (fun _ => 0) exampleBasisEntry [] (by decide) (by decide)

/-! ## Claim C6 -/

/-- C6: a zero-size file gets a metadata-only IndexEntry whose address
list is empty, and `store_file_content` on `n > 0` bytes returns exactly
`ceil(n / MAX_BLOCK_SIZE)` addresses, each with start 0 and length at
most `MAX_BLOCK_SIZE`; in particular exactly `MAX_BLOCK_SIZE` bytes
yield one address and `MAX_BLOCK_SIZE + 1` bytes yield two. -/
theorem c6_chunking_boundaries :
    (∀ (st : WriterState) (entry : LiveEntry) (content : List Nat)
      (hashFn : List Nat → Nat),
      entry.size = some 0 →
      copy_file_contents st entry content hashFn =
        { st with
            index := st.index ++ [IndexEntry.metadata_from entry],
            stats := { st.stats with
              empty_files := st.stats.empty_files + 1 } } ∧
      (IndexEntry.metadata_from entry).addrs = []) ∧
    (∀ (ap content : List Nat) (bd : List (List Nat)) (stats : BackupStats)
      (hashFn : List Nat → Nat), content ≠ [] →
      (store_file_content ap content bd stats hashFn).1.length =
        (content.length + MAX_BLOCK_SIZE - 1) / MAX_BLOCK_SIZE ∧
      ∀ a ∈ (store_file_content ap content bd stats hashFn).1,
        a.start = 0 ∧ a.len ≤ MAX_BLOCK_SIZE) ∧
    (∀ (ap content : List Nat) (bd : List (List Nat)) (stats : BackupStats)
      (hashFn : List Nat → Nat), content.length = MAX_BLOCK_SIZE →
      (store_file_content ap content bd stats hashFn).1.length = 1) ∧
    (∀ (ap content : List Nat) (bd : List (List Nat)) (stats : BackupStats)
      (hashFn : List Nat → Nat), content.length = MAX_BLOCK_SIZE + 1 →
      (store_file_content ap content bd stats hashFn).1.length = 2) := by
  have hfst : ∀ (ap content : List Nat) (bd : List (List Nat))
      (stats : BackupStats) (hashFn : List Nat → Nat),
      (store_file_content ap content bd stats hashFn).1 =
        (store_loop content bd hashFn).1 := fun _ _ _ _ _ => rfl
  refine ⟨?_, ?_, ?_, ?_⟩
  · intro st entry content hashFn hsize
    refine ⟨?_, rfl⟩
    simp [copy_file_contents, hsize]
  · intro ap content bd stats hashFn hne
    rw [hfst]
    exact ⟨store_loop_length content.length content bd hashFn rfl hne,
      store_loop_addrs content.length content bd hashFn rfl⟩
  · intro ap content bd stats hashFn hlen
    have hne : content ≠ [] := by
      intro hcon
      rw [hcon] at hlen
      simp at hlen
      exact absurd hlen (by decide)
    rw [hfst, store_loop_length content.length content bd hashFn rfl hne, hlen]
    decide
  · intro ap content bd stats hashFn hlen
    have hne : content ≠ [] := by
      intro hcon
      rw [hcon] at hlen
      simp at hlen
    rw [hfst, store_loop_length content.length content bd hashFn rfl hne, hlen]
    decide

/-- Witness for C6: the zero-size branch at a concrete entry, one small
file, and files of exactly `MAX_BLOCK_SIZE` and `MAX_BLOCK_SIZE + 1`
bytes. -/
theorem c6_witness :
    copy_file_contents exampleWriterState exampleEmptyFileEntry [] (fun _ => 0) =
      { exampleWriterState with
          index := exampleWriterState.index ++
            [IndexEntry.metadata_from exampleEmptyFileEntry],
          stats := { exampleWriterState.stats with
            empty_files := exampleWriterState.stats.empty_files + 1 } } ∧
    (store_file_content [47] [5] [] {} (fun _ => 0)).1.length = 1 ∧
    (store_file_content [47] (List.replicate MAX_BLOCK_SIZE 0) [] {}
        (fun _ => 0)).1.length = 1 ∧
    (store_file_content [47] (List.replicate (MAX_BLOCK_SIZE + 1) 0) [] {}
        (fun _ => 0)).1.length = 2 := by
  refine ⟨(c6_chunking_boundaries.1 exampleWriterState exampleEmptyFileEntry []
      (fun _ => 0) rfl).1, ?_, ?_, ?_⟩
  · have := (c6_chunking_boundaries.2.1 [47] [5] [] {} (fun _ => 0)
      (by decide)).1
    rw [this]
    decide
  · exact c6_chunking_boundaries.2.2.1 [47] (List.replicate MAX_BLOCK_SIZE 0)
      [] {} (fun _ => 0) (by simp)
  · exact c6_chunking_boundaries.2.2.2 [47]
      (List.replicate (MAX_BLOCK_SIZE + 1) 0) [] {} (fun _ => 0) (by simp)

/-! ## Claim C7 -/

/-- C7: `flush` on an empty queue stores nothing and changes nothing;
otherwise it stores the combined buffer once and finishes every queued
entry, in push order, with a single address of the combined block's hash
at the file's (start, len), then clears buffer and queue.  `push_file`
appends the file's bytes at the end of the buffer (where its recorded
(start, len) locates exactly those bytes) and flushes exactly when the
buffer reaches `TARGET_COMBINED_BLOCK_SIZE`; after `drain`, every queued
file and every already-finished small file appears among the returned
finished entries. -/
theorem c7_file_combiner :
    (∀ (c : FileCombiner) (bd : List (List Nat)) (hashFn : List Nat → Nat),
      c.queue = [] → FileCombiner.flush c bd hashFn = (c, bd)) ∧
    (∀ (c : FileCombiner) (bd : List (List Nat)) (hashFn : List Nat → Nat),
      c.queue ≠ [] →
      FileCombiner.flush c bd hashFn =
        ({ buf := [], queue := [],
           finished := c.finished ++ c.queue.map fun qf =>
             { qf.entry with addrs := [⟨hashFn c.buf, qf.start, qf.len⟩] },
           stats := { c.stats with
             combined_blocks := c.stats.combined_blocks + 1 } },
         bd ++ [c.buf])) ∧
    (∀ (c : FileCombiner) (entry : LiveEntry) (content : List Nat)
      (bd : List (List Nat)) (hashFn : List Nat → Nat) (n : Nat),
      entry.size = some n → n ≠ 0 → content.take n ≠ [] →
      (FileCombiner.push_file c entry content bd hashFn =
        (let c1 : FileCombiner := { c with
            buf := c.buf ++ content.take n,
            stats := { c.stats with
              small_combined_files := c.stats.small_combined_files + 1 },
            queue := c.queue ++ [⟨c.buf.length, (content.take n).length,
              IndexEntry.metadata_from entry⟩] };
          if TARGET_COMBINED_BLOCK_SIZE ≤ c1.buf.length then
            FileCombiner.flush c1 bd hashFn
          else (c1, bd))) ∧
      ((c.buf ++ content.take n).drop c.buf.length).take
          (content.take n).length = content.take n) ∧
    (∀ (c : FileCombiner) (bd : List (List Nat)) (hashFn : List Nat → Nat)
      (qf : QueuedFile), qf ∈ c.queue →
      { qf.entry with addrs := [⟨hashFn c.buf, qf.start, qf.len⟩] } ∈
        (FileCombiner.drain c bd hashFn).2.2) ∧
    (∀ (c : FileCombiner) (bd : List (List Nat)) (hashFn : List Nat → Nat)
      (e : IndexEntry), e ∈ c.finished →
      e ∈ (FileCombiner.drain c bd hashFn).2.2) := by
  have hflush_ne : ∀ (c : FileCombiner) (bd : List (List Nat))
      (hashFn : List Nat → Nat), c.queue ≠ [] →
      FileCombiner.flush c bd hashFn =
        ({ buf := [], queue := [],
           finished := c.finished ++ c.queue.map fun qf =>
             { qf.entry with addrs := [⟨hashFn c.buf, qf.start, qf.len⟩] },
           stats := { c.stats with
             combined_blocks := c.stats.combined_blocks + 1 } },
         bd ++ [c.buf]) := by
    intro c bd hashFn hq
    simp [FileCombiner.flush, List.isEmpty_iff, hq, store_or_deduplicate]
  refine ⟨?_, hflush_ne, ?_, ?_, ?_⟩
  · intro c bd hashFn hq
    simp [FileCombiner.flush, List.isEmpty_iff, hq]
  · intro c entry content bd hashFn n hsize hn htake
    constructor
    · simp [FileCombiner.push_file, hsize, hn, htake, List.length_eq_zero]
      intro hcon
      subst hcon
      simp at htake
    · rw [List.drop_left, List.take_length]
  · intro c bd hashFn qf hqf
    by_cases hq : c.queue = []
    · rw [hq] at hqf
      cases hqf
    · simp only [FileCombiner.drain, hflush_ne c bd hashFn hq]
      simp only [List.mem_append]
      exact Or.inr (List.mem_map_of_mem _ hqf)
  · intro c bd hashFn e he
    by_cases hq : c.queue = []
    · simp only [FileCombiner.drain]
      have : FileCombiner.flush c bd hashFn = (c, bd) := by
        simp [FileCombiner.flush, List.isEmpty_iff, hq]
      rw [this]
      exact he
    · simp only [FileCombiner.drain, hflush_ne c bd hashFn hq]
      simp only [List.mem_append]
      exact Or.inl he

/-- Witness for C7: flushing a combiner holding one queued one-byte file
stores the buffer and finishes that file's entry, and the entry survives
`drain`. -/
theorem c7_witness :
    FileCombiner.flush exampleQueuedCombiner [] (fun _ => 0) =
      ({ buf := [], queue := [],
         finished := [{ IndexEntry.metadata_from exampleFileEntry with
           addrs := [⟨0, 0, 1⟩] }],
         stats := { combined_blocks := 1 } },
       [[9]]) ∧
    ({ IndexEntry.metadata_from exampleFileEntry with
        addrs := [⟨0, 0, 1⟩] } : IndexEntry) ∈
      (FileCombiner.drain exampleQueuedCombiner [] fun _ => 0).2.2 := by
  constructor
  · have := c7_file_combiner.2.1 exampleQueuedCombiner [] (fun _ => 0)
      (by decide)
    rw [this]
    rfl
  · exact c7_file_combiner.2.2.2.1 exampleQueuedCombiner [] (fun _ => 0)
      ⟨0, 1, IndexEntry.metadata_from exampleFileEntry⟩ (by decide)

/-! ## Claim C1 -/

theorem find_band_of_nodup :
    ∀ (bands : List BandState), (bands.map BandState.band_id).Nodup →
      ∀ b ∈ bands, bands.find? (fun x => x.band_id == b.band_id) = some b := by
  intro bands
  induction bands with
  | nil =>
    intro _ b hb
    cases hb
  | cons x rest ih =>
    intro hnodup b hb
    rw [List.map_cons, List.nodup_cons] at hnodup
    obtain ⟨hx, hrest⟩ := hnodup
    rcases List.mem_cons.mp hb with rfl | hbrest
    · simp [List.find?]
    · have hne : (x.band_id == b.band_id) = false := by
        simp only [beq_eq_false_iff_ne, ne_eq]
        intro he
        exact hx (he ▸ List.mem_map_of_mem BandState.band_id hbrest)
      rw [List.find?_cons_of_neg _ (by simp [hne])]
      exact ih hrest b hbrest

theorem mem_iter_referenced_blocks (st : ArchiveState)
    (ids : List (List Nat)) (id : List Nat) (hid : id ∈ ids)
    (e : IndexEntry) (he : e ∈ band_entries st id) (a : Address)
    (ha : a ∈ e.addrs) : a.hash ∈ iter_referenced_blocks st ids := by
  unfold iter_referenced_blocks
  refine List.mem_map.mpr ⟨a, ?_, rfl⟩
  refine List.mem_flatMap.mpr ⟨id, hid, ?_⟩
  exact List.mem_flatMap.mpr ⟨e, he, ha⟩

/-- C1: a successful non-dry-run `delete_bands(ids, options)` never
deletes a block referenced by a band outside `ids`: the kept band
survives, and every block present before the call and referenced from a
kept band's entries is still present after it.  (Band ids are pairwise
distinct, as band directories in an archive are.) -/
theorem c1_delete_bands_gc_safety :
    ∀ (st : ArchiveState) (ids : List (List Nat)) (opts : DeleteOptions)
      (st2 : ArchiveState) (stats : DeleteStats),
      opts.dry_run = false →
      (st.bands.map BandState.band_id).Nodup →
      delete_bands st ids opts = .ok (st2, stats) →
      ∀ b ∈ st.bands, b.band_id ∉ ids →
        b ∈ st2.bands ∧
        ∀ e ∈ b.entries, ∀ a ∈ e.addrs,
          a.hash ∈ st.blocks.map Prod.fst →
          a.hash ∈ st2.blocks.map Prod.fst := by
  intro st ids opts st2 stats hdry hnodup hok b hb hbid
  have hkeep : b.band_id ∈ (st.bands.map BandState.band_id).filter
      fun i => ¬ ids.contains i := by
    rw [List.mem_filter]
    exact ⟨List.mem_map_of_mem _ hb, by simp [hbid]⟩
  have hbe : band_entries st b.band_id = b.entries := by
    unfold band_entries
    rw [find_band_of_nodup st.bands hnodup b hb]
    rfl
  have href : ∀ e ∈ b.entries, ∀ a ∈ e.addrs,
      a.hash ∈ iter_referenced_blocks st
        ((st.bands.map BandState.band_id).filter fun i => ¬ ids.contains i) := by
    intro e he a ha
    exact mem_iter_referenced_blocks st _ b.band_id hkeep e (hbe ▸ he) a ha
  unfold delete_bands at hok
  split at hok
  · cases hok
  · rename_i locked hlocked
    have hl : locked = { st with gc_lock := true } := by
      by_cases hbl : opts.break_lock = true
      · rw [if_pos hbl] at hlocked
        unfold GarbageCollectionLock.break_lock at hlocked
        injection hlocked with h
        exact h.symm
      · rw [if_neg hbl] at hlocked
        unfold GarbageCollectionLock.new at hlocked
        by_cases hgc : st.gc_lock = true
        · rw [if_pos hgc] at hlocked
          cases hlocked
        · rw [if_neg hgc] at hlocked
          injection hlocked with h
          exact h.symm
    rw [hdry] at hok
    simp only [Bool.false_eq_true, if_false] at hok
    split at hok
    · injection hok with hpair
      have hst2 := congrArg Prod.fst hpair
      simp only at hst2
      subst hst2
      constructor
      · show b ∈ List.filter _ locked.bands
        rw [hl]
        rw [List.mem_filter]
        exact ⟨hb, by simp [hbid]⟩
      · intro e he a ha hmem
        obtain ⟨p, hp, hph⟩ := List.mem_map.mp hmem
        have hrefa := href e he a ha
        refine List.mem_map.mpr ⟨p, ?_, hph⟩
        show p ∈ List.filter _ locked.blocks
        rw [hl]
        rw [List.mem_filter]
        refine ⟨hp, ?_⟩
        simp only [decide_eq_true_eq]
        intro hcon
        have hmemu : p.1 ∈ (st.blocks.map Prod.fst).filter
            (fun h => ¬ (iter_referenced_blocks st
              ((st.bands.map BandState.band_id).filter
                fun i => ¬ ids.contains i)).contains h) := by
          simpa using hcon
        rw [List.mem_filter] at hmemu
        have h2 := hmemu.2
        simp only [decide_eq_true_eq] at h2
        exact h2 (List.elem_eq_true_of_mem (hph ▸ hrefa))
    · cases hok

/-- Witness for C1: deleting band `b0001` of a concrete two-band archive
keeps band `b0000` and the block its entry references. -/
theorem c1_witness :
    (⟨[0], [exampleEntryBlock1]⟩ : BandState) ∈
        ({ bands := [⟨[0], [exampleEntryBlock1]⟩], blocks := [(1, 8)],
            gc_lock := false } : ArchiveState).bands ∧
      (1 : Nat) ∈
        ({ bands := [⟨[0], [exampleEntryBlock1]⟩], blocks := [(1, 8)],
            gc_lock := false } : ArchiveState).blocks.map Prod.fst := by
  have h := c1_delete_bands_gc_safety exampleArchive [[1]] ⟨false, false⟩
    { bands := [⟨[0], [exampleEntryBlock1]⟩], blocks := [(1, 8)],
      gc_lock := false }
    { unreferenced_block_count := 1, unreferenced_block_bytes := 9,
      deleted_band_count := 1, deleted_block_count := 1, deletion_errors := 0 }
    rfl (by decide) rfl ⟨[0], [exampleEntryBlock1]⟩ (by decide)
    (by decide)
  exact ⟨h.1, h.2 exampleEntryBlock1 (by decide) ⟨1, 0, 1⟩ (by decide)
    (by decide)⟩

end Conserve
